import Mathlib

/-
Formal model of the flashcards-with-raylib core (src/main.rs and src/utils.rs):
the flashcard session state machine, the CSV line parsing, the card loading,
the greedy text wrapping, and the deck catalog management.

Modelling conventions:
- Rust strings are modelled as lists of Unicode scalar values (List Char).
- Rust machine integers are modelled over Nat/Int, with explicit wrapping
  where the Rust operation wraps (usize and i32 arithmetic).
- Filesystem access is modelled by passing the observed directory listing or
  file contents as an explicit argument.
-/

/-! ## Basic text primitives -/

/-- Number of bytes of the UTF-8 encoding of a scalar value; Rust
String.len() counts bytes, so lengths of modelled strings are summed
with this. -/
def utf8Len (c : Char) : Nat :=
  if c.toNat < 128 then 1
  else if c.toNat < 2048 then 2
  else if c.toNat < 65536 then 3
  else 4

/-- Byte length of a modelled string, as Rust String.len() computes it. -/
def byteLen (l : List Char) : Nat := (l.map utf8Len).sum

/-- Models Rust str::trim: remove leading and trailing whitespace.
Char.isWhitespace stands in for Rust char::is_whitespace (both contain the
ASCII whitespace characters; only those occur in the repository data). -/
def trimChars (l : List Char) : List Char :=
  ((l.dropWhile fun c => c.isWhitespace).reverse.dropWhile fun c => c.isWhitespace).reverse

/-- Accumulator-style scanner behind splitWS; cur holds the current
in-progress word in reverse. -/
def splitWSAux : List Char → List Char → List (List Char)
  | [], cur => if cur = [] then [] else [cur.reverse]
  | c :: cs, cur =>
    if c.isWhitespace then
      if cur = [] then splitWSAux cs [] else cur.reverse :: splitWSAux cs []
    else splitWSAux cs (c :: cur)

/-- Models Rust str::split_whitespace: split on whitespace, dropping empty
tokens. -/
def splitWS (l : List Char) : List (List Char) := splitWSAux l []

/-- Join words with single spaces, as the candidate lines of wrap_text are
built; used to describe the shape of wrapped lines. -/
def sepJoin : List (List Char) → List Char
  | [] => []
  | [w] => w
  | w :: ws => w ++ ' ' :: sepJoin ws

/-! ## Session state machine (FlashcardGame, src/main.rs lines 9 to 59) -/

structure Flashcard where
  question : List Char
  answer : List Char
deriving DecidableEq, Repr

structure FlashcardGame where
  cards : List Flashcard
  current_index : Nat
  is_flipped : Bool
deriving DecidableEq, Repr

def FlashcardGame.new (cards : List Flashcard) : FlashcardGame :=
  { cards := cards, current_index := 0, is_flipped := false }

/-- Models the Rust usize expression self.cards.len() - 1: for len = 0 the
subtraction underflows; release-profile Rust wraps it to 2^64 - 1 (a debug
build would abort with an overflow panic at the same spot). -/
def usizePred (n : Nat) : Nat := if n = 0 then 2 ^ 64 - 1 else n - 1

/-- FlashcardGame::next_card (src/main.rs lines 30 to 35). -/
def FlashcardGame.next_card (g : FlashcardGame) : FlashcardGame :=
  if g.current_index < usizePred g.cards.length then
    { g with current_index := g.current_index + 1, is_flipped := false }
  else g

/-- FlashcardGame::prev_card (src/main.rs lines 37 to 42). -/
def FlashcardGame.prev_card (g : FlashcardGame) : FlashcardGame :=
  if 0 < g.current_index then
    { g with current_index := g.current_index - 1, is_flipped := false }
  else g

/-- FlashcardGame::flip (src/main.rs lines 44 to 46). -/
def FlashcardGame.flip (g : FlashcardGame) : FlashcardGame :=
  { g with is_flipped := !g.is_flipped }

/-- FlashcardGame::get_current_text (src/main.rs lines 48 to 58); the Rust
code looks the current card up with Vec::get and falls back to "". -/
def FlashcardGame.get_current_text (g : FlashcardGame) : List Char :=
  match g.cards[g.current_index]? with
  | some card => if g.is_flipped then card.answer else card.question
  | none => []

/-! ## CSV line parsing (parse_csv_line, src/main.rs lines 61 to 99) -/

/-- The character scan loop of parse_csv_line: walks the line with an
in_quotes flag, a current-field accumulator and the list of closed fields;
the one-character lookahead of the Rust peekable iterator appears as a
two-deep pattern (in the one-character case the peek sees nothing, so a
quote always toggles). The end of input closes the final (trimmed)
field. -/
def parseCsvAux : List Char → Bool → List Char → List (List Char) → List (List Char)
  | [], _, cur, fields => fields ++ [trimChars cur]
  | [c], inQ, cur, fields =>
    if c = '"' then
      parseCsvAux [] (!inQ) cur fields
    else if c = ',' ∧ inQ = false then
      parseCsvAux [] inQ [] (fields ++ [trimChars cur])
    else
      parseCsvAux [] inQ (cur ++ [c]) fields
  | c :: c2 :: rest, inQ, cur, fields =>
    if c = '"' ∧ inQ = true ∧ c2 = '"' then
      parseCsvAux rest inQ (cur ++ ['"']) fields
    else if c = '"' then
      parseCsvAux (c2 :: rest) (!inQ) cur fields
    else if c = ',' ∧ inQ = false then
      parseCsvAux (c2 :: rest) inQ [] (fields ++ [trimChars cur])
    else
      parseCsvAux (c2 :: rest) inQ (cur ++ [c]) fields

/-- parse_csv_line (src/main.rs lines 61 to 99): scan the line, then return
the first two closed fields as (question, answer), or nothing when fewer
than two fields were closed. -/
def parse_csv_line (line : List Char) : Option (List Char × List Char) :=
  match parseCsvAux line false [] [] with
  | q :: a :: _ => some (q, a)
  | _ => none

/-! ## Card loading (src/main.rs lines 101 to 117 and 177 to 196) -/

/-- The pure core of load_flashcards (src/main.rs lines 101 to 117): the
lines already read from the file are passed in; each line goes through
parse_csv_line and only records with a non-empty question and answer are
kept, in file order. -/
def load_flashcards (lines : List (List Char)) : List Flashcard :=
  lines.foldl
    (fun cards l =>
      match parse_csv_line l with
      | some (question, answer) =>
        if question ≠ [] ∧ answer ≠ [] then cards ++ [⟨question, answer⟩] else cards
      | none => cards)
    []

/-- try_load_cards (src/main.rs lines 177 to 189). The argument is the
outcome of reading the file: none models an I/O error from load_flashcards,
some ls the list of lines read. A non-empty card list is returned as is;
an I/O error or an empty card list yields none (the Rust code prints a
diagnostic on stderr in both of those branches). -/
def try_load_cards (fileLines : Option (List (List Char))) : Option (List Flashcard) :=
  match fileLines with
  | some ls =>
    let cards := load_flashcards ls
    if cards ≠ [] then some cards else none
  | none => none

/-- update_decks (src/main.rs lines 191 to 196), with the content of the
active deck file passed explicitly. A some result models the assignment
*game = FlashcardGame::new(cards); the none result models the Rust
panic!("Failed to load cards"), which aborts the whole process. -/
def update_decks (fileLines : Option (List (List Char))) (game : FlashcardGame) :
    Option FlashcardGame :=
  match try_load_cards fileLines with
  | some cards => some (FlashcardGame.new cards)
  | none => none

/-! ## Text wrapping (wrap_text, src/main.rs lines 119 to 149) -/

/-- Interpret an integer as a wrapping 32-bit signed value, the result of a
Rust i32 operation or an as-i32 cast. -/
def wrap32 (n : Int) : Int := (n + 2 ^ 31) % 2 ^ 32 - 2 ^ 31

/-- The width test of wrap_text: (test_line.len() as i32 * approx_char_width)
> max_width, with the usize-to-i32 cast and the i32 multiplication both
wrapping. -/
def wrapTooWide (maxW approx : Int) (test : List Char) : Bool :=
  maxW < wrap32 (wrap32 ((byteLen test : Nat) : Int) * approx)

/-- The word loop of wrap_text: current_line starts empty, each word forms a
candidate line (current_line + " " + word, or the word alone when
current_line is empty); an over-budget candidate flushes current_line (or
the lone word) into lines. -/
def wrapAux (maxW approx : Int) : List (List Char) → List Char → List (List Char) → List (List Char)
  | [], cur, acc => if cur = [] then acc else acc ++ [cur]
  | w :: ws, cur, acc =>
    let test := if cur = [] then w else cur ++ ' ' :: w
    if wrapTooWide maxW approx test then
      if cur = [] then wrapAux maxW approx ws [] (acc ++ [w])
      else wrapAux maxW approx ws w (acc ++ [cur])
    else wrapAux maxW approx ws test acc

/-- wrap_text (src/main.rs lines 119 to 149): split the text on whitespace
and greedily pack words into lines under the byte-count width estimate
approx_char_width = font_size / 2 (Rust i32 division truncates toward
zero, hence Int.tdiv). -/
def wrap_text (text : List Char) (max_width font_size : Int) : List (List Char) :=
  wrapAux max_width (Int.tdiv font_size 2) (splitWS text) [] []

/-- Words as produced by whitespace splitting: non-empty and free of
whitespace characters. -/
def NiceWords (ws : List (List Char)) : Prop :=
  ∀ w ∈ ws, w ≠ [] ∧ ∀ c ∈ w, c.isWhitespace = false

/-- Shape of a line produced by wrap_text: a space-join of words, within
the width budget whenever it holds at least two words (approx is the
per-character width estimate). -/
def GoodLine (maxW approx : Int) (l : List Char) : Prop :=
  ∃ ws, ws ≠ [] ∧ NiceWords ws ∧ l = sepJoin ws ∧
    (2 ≤ ws.length → (byteLen l : Int) * approx ≤ maxW)

/-! ## Deck catalog (DeckManager, src/utils.rs) -/

/-- One directory child as observed by fs::read_dir: its file name and
whether it is a regular file. File names are assumed valid UTF-8 (the
to_str() call in the Rust code succeeds on them). -/
structure DirEntry where
  name : List Char
  isFile : Bool
deriving DecidableEq, Repr

/-- The filesystem facts DeckManager::new consults about the deck folder:
whether the path exists, whether it is a directory, and its children. -/
structure DirListing where
  pathExists : Bool
  isDir : Bool
  entries : List DirEntry
deriving DecidableEq, Repr

/-- The three failure classes of DeckManager::new, identified by the three
error sites in src/utils.rs (ErrorKind::NotFound "Folder ... does not
exist", ErrorKind::InvalidInput "... is not a directory",
ErrorKind::NotFound "No CSV files found ..."). -/
inductive CatalogError where
  | directoryNotFound
  | notADirectory
  | noDecksFound
deriving DecidableEq, Repr

/-- Split a file name at its last dot: some (before, after) when a dot
occurs, none otherwise. -/
def splitAtLastDot : List Char → Option (List Char × List Char)
  | [] => none
  | c :: cs =>
    match splitAtLastDot cs with
    | some (b, a) => some (c :: b, a)
    | none => if c = '.' then some ([], cs) else none

/-- Models Rust Path::extension on a file name (the std function split_file_at_dot):
no dot, or a leading dot as the only dot (hidden file), or the special
name "..", gives no extension; otherwise the part after the last dot. -/
def pathExtension (n : List Char) : Option (List Char) :=
  if n = ['.', '.'] then none
  else
    match splitAtLastDot n with
    | none => none
    | some (b, a) => if b = [] then none else some a

/-- Lexicographic order on scalar-value sequences; on valid UTF-8 this
coincides with the byte order Rust Vec::sort uses on String. -/
def lexLe : List Char → List Char → Bool
  | [], _ => true
  | _ :: _, [] => false
  | a :: as, b :: bs =>
    if a.toNat < b.toNat then true
    else if b.toNat < a.toNat then false
    else lexLe as bs

/-- Propositional form of lexLe, for the sorting lemmas. -/
def lexLeP (a b : List Char) : Prop := lexLe a b = true

instance : DecidableRel lexLeP := fun a b => inferInstanceAs (Decidable (lexLe a b = true))

structure DeckManager where
  deck_files : List (List Char)
  current_deck_index : Nat
  deck_folder : List Char
deriving DecidableEq, Repr

/-- The filter of DeckManager::new: keep regular files whose extension is
exactly "csv" (case-sensitive). -/
def keepDeckFile (e : DirEntry) : Bool :=
  e.isFile && decide (pathExtension e.name = some ['c', 's', 'v'])

/-- DeckManager::new (src/utils.rs lines 12 to 67), over the observed
directory listing: check existence and directory-ness, collect the names of
the csv regular files, sort them (the Rust local deck_files, written out
twice here), and fail when none remain. The insertion sort models
the stable lexicographic sort of Vec::sort. -/
def DeckManager.new (folder : List Char) (dir : DirListing) : Except CatalogError DeckManager :=
  if dir.pathExists = false then Except.error CatalogError.directoryNotFound
  else if dir.isDir = false then Except.error CatalogError.notADirectory
  else if List.insertionSort lexLeP ((dir.entries.filter keepDeckFile).map DirEntry.name) = [] then
    Except.error CatalogError.noDecksFound
  else
    Except.ok
      { deck_files :=
          List.insertionSort lexLeP ((dir.entries.filter keepDeckFile).map DirEntry.name)
        current_deck_index := 0
        deck_folder := folder }

/-- DeckManager::next_deck (src/utils.rs lines 76 to 80). -/
def DeckManager.next_deck (dm : DeckManager) : DeckManager :=
  if dm.deck_files ≠ [] then
    { dm with current_deck_index := (dm.current_deck_index + 1) % dm.deck_files.length }
  else dm

/-- DeckManager::prev_deck (src/utils.rs lines 83 to 91). -/
def DeckManager.prev_deck (dm : DeckManager) : DeckManager :=
  if dm.deck_files ≠ [] then
    if dm.current_deck_index = 0 then
      { dm with current_deck_index := dm.deck_files.length - 1 }
    else { dm with current_deck_index := dm.current_deck_index - 1 }
  else dm

/-! ## Lemmas about whitespace splitting -/

theorem utf8Len_pos (c : Char) : 1 ≤ utf8Len c := by
  unfold utf8Len
  split_ifs <;> omega

theorem byteLen_append (a b : List Char) : byteLen (a ++ b) = byteLen a + byteLen b := by
  simp [byteLen]

theorem byteLen_cons (c : Char) (l : List Char) : byteLen (c :: l) = utf8Len c + byteLen l := by
  simp [byteLen]

theorem byteLen_reverse (l : List Char) : byteLen l.reverse = byteLen l := by
  simp [byteLen, List.map_reverse, List.sum_reverse]

theorem length_le_byteLen (l : List Char) : l.length ≤ byteLen l := by
  induction l with
  | nil => simp [byteLen]
  | cons c cs ih =>
    have := utf8Len_pos c
    simp only [List.length_cons, byteLen_cons]
    omega

/-- Every token produced by the whitespace scan is non-empty and free of
whitespace characters. -/
theorem splitWSAux_nice :
    ∀ (l cur : List Char), (∀ c ∈ cur, c.isWhitespace = false) →
      ∀ w ∈ splitWSAux l cur, w ≠ [] ∧ ∀ c ∈ w, c.isWhitespace = false := by
  intro l
  induction l with
  | nil =>
    intro cur hcur w hw
    simp only [splitWSAux] at hw
    by_cases h : cur = []
    · simp [h] at hw
    · simp [h] at hw
      subst hw
      refine ⟨by simpa using h, ?_⟩
      intro c hc
      exact hcur c (List.mem_reverse.mp hc)
  | cons c cs ih =>
    intro cur hcur w hw
    simp only [splitWSAux] at hw
    by_cases hws : c.isWhitespace
    · simp only [hws, if_true] at hw
      by_cases h : cur = []
      · simp only [h, if_true] at hw
        exact ih [] (by simp) w hw
      · simp only [h, if_false] at hw
        rcases List.mem_cons.mp hw with h1 | h1
        · subst h1
          refine ⟨by simpa using h, ?_⟩
          intro d hd
          exact hcur d (List.mem_reverse.mp hd)
        · exact ih [] (by simp) w h1
    · simp only [hws, if_false] at hw
      refine ih (c :: cur) ?_ w hw
      intro d hd
      rcases List.mem_cons.mp hd with h1 | h1
      · subst h1
        simpa using hws
      · exact hcur d h1

/-- Splitting distributes over an explicit space separator. -/
theorem splitWSAux_append_space :
    ∀ (a cur b : List Char),
      splitWSAux (a ++ ' ' :: b) cur = splitWSAux a cur ++ splitWSAux b [] := by
  intro a
  induction a with
  | nil =>
    intro cur b
    have hsp : (' ' : Char).isWhitespace = true := by decide
    simp only [List.nil_append, splitWSAux, hsp, if_true]
    by_cases h : cur = [] <;> simp [h]
  | cons c cs ih =>
    intro cur b
    simp only [List.cons_append, splitWSAux]
    by_cases hws : c.isWhitespace
    · simp only [hws, if_true]
      by_cases h : cur = []
      · simp [h, ih]
      · simp [h, ih]
    · simp [hws, ih]

/-- Scanning a whitespace-free word just appends it to the pending token. -/
theorem splitWSAux_of_nice :
    ∀ (w cur : List Char), (∀ c ∈ w, c.isWhitespace = false) →
      splitWSAux w cur = if cur.reverse ++ w = [] then [] else [cur.reverse ++ w] := by
  intro w
  induction w with
  | nil =>
    intro cur _
    simp only [splitWSAux, List.append_nil]
    by_cases h : cur = [] <;> simp [h]
  | cons c cs ih =>
    intro cur hnice
    have hc : c.isWhitespace = false := hnice c (by simp)
    simp only [splitWSAux, hc, if_false]
    rw [ih (c :: cur) (fun d hd => hnice d (List.mem_cons_of_mem c hd))]
    simp

/-- A non-empty whitespace-free word is its own single token. -/
theorem splitWS_nice (w : List Char) (hne : w ≠ []) (hnice : ∀ c ∈ w, c.isWhitespace = false) :
    splitWS w = [w] := by
  unfold splitWS
  rw [splitWSAux_of_nice w [] hnice]
  simp [hne]

/-- Splitting a space-joined candidate line recovers the two sides. -/
theorem splitWS_append_space (a b : List Char) :
    splitWS (a ++ ' ' :: b) = splitWS a ++ splitWS b := by
  unfold splitWS
  exact splitWSAux_append_space a [] b

theorem splitWS_nil : splitWS [] = [] := rfl

/-- Splitting a space-join of non-empty whitespace-free words recovers
exactly those words. -/
theorem splitWS_sepJoin :
    ∀ (ws : List (List Char)),
      (∀ w ∈ ws, w ≠ [] ∧ ∀ c ∈ w, c.isWhitespace = false) →
      splitWS (sepJoin ws) = ws := by
  intro ws
  induction ws with
  | nil => intro _; rfl
  | cons w rest ih =>
    intro h
    rcases h w (by simp) with ⟨hne, hnice⟩
    cases rest with
    | nil => simpa [sepJoin] using splitWS_nice w hne hnice
    | cons x xs =>
      have : sepJoin (w :: x :: xs) = w ++ ' ' :: sepJoin (x :: xs) := rfl
      rw [this, splitWS_append_space, splitWS_nice w hne hnice,
        ih (fun v hv => h v (List.mem_cons_of_mem w hv))]
      simp

/-! ## Word preservation of the wrapper -/

/-- Invariant of the wrap_text word loop: whatever the width test decides,
the words of the accumulated lines, the pending line and the remaining
words concatenate to the full word sequence. -/
theorem wrapAux_flatten (maxW approx : Int) :
    ∀ (ws : List (List Char)) (cur : List Char) (acc : List (List Char)),
      (∀ w ∈ ws, w ≠ [] ∧ ∀ c ∈ w, c.isWhitespace = false) →
      ((wrapAux maxW approx ws cur acc).map splitWS).flatten
        = (acc.map splitWS).flatten ++ splitWS cur ++ ws := by
  intro ws
  induction ws with
  | nil =>
    intro cur acc _
    simp only [wrapAux]
    by_cases h : cur = []
    · simp [h, splitWS_nil]
    · simp [h]
  | cons w rest ih =>
    intro cur acc hnice
    rcases hnice w (by simp) with ⟨hwne, hwnice⟩
    have hrest : ∀ v ∈ rest, v ≠ [] ∧ ∀ c ∈ v, c.isWhitespace = false :=
      fun v hv => hnice v (List.mem_cons_of_mem w hv)
    simp only [wrapAux]
    by_cases hcur : cur = []
    · simp only [hcur, if_true, reduceIte]
      by_cases hwide : wrapTooWide maxW approx w
      · simp only [hwide, if_true, reduceIte]
        rw [ih [] (acc ++ [w]) hrest]
        simp [splitWS_nil, splitWS_nice w hwne hwnice]
      · simp only [hwide, if_false, Bool.false_eq_true, reduceIte]
        rw [ih w acc hrest]
        simp [splitWS_nil, splitWS_nice w hwne hwnice]
    · simp only [hcur, if_false, reduceIte]
      by_cases hwide : wrapTooWide maxW approx (cur ++ ' ' :: w)
      · simp only [hwide, if_true, reduceIte]
        rw [ih w (acc ++ [cur]) hrest]
        simp [splitWS_nice w hwne hwnice]
      · simp only [hwide, if_false, Bool.false_eq_true, reduceIte]
        rw [ih (cur ++ ' ' :: w) acc hrest]
        rw [splitWS_append_space, splitWS_nice w hwne hwnice]
        simp

/-- C8: for every input text, maximum width and font size, splitting each
line returned by wrap_text on whitespace and concatenating the resulting
words in order reproduces exactly the whitespace-split word sequence of the
input: no words are dropped, reordered, duplicated, or altered. -/
theorem C8_wrap_preserves_words (text : List Char) (max_width font_size : Int) :
    ((wrap_text text max_width font_size).map splitWS).flatten = splitWS text := by
  unfold wrap_text
  rw [wrapAux_flatten max_width (Int.tdiv font_size 2) (splitWS text) [] []
    (fun w hw => splitWSAux_nice text [] (by simp) w hw)]
  simp [splitWS_nil]

/-! ## Lemmas about space-joined lines -/

theorem sepJoin_cons_cons (w x : List Char) (xs : List (List Char)) :
    sepJoin (w :: x :: xs) = w ++ ' ' :: sepJoin (x :: xs) := rfl

theorem sepJoin_ne_nil (ws : List (List Char)) (hne : ws ≠ []) (hnice : NiceWords ws) :
    sepJoin ws ≠ [] := by
  cases ws with
  | nil => exact absurd rfl hne
  | cons w rest =>
    cases rest with
    | nil => exact (hnice w (by simp)).1
    | cons x xs =>
      rw [sepJoin_cons_cons]
      simp

theorem sepJoin_append_nonempty :
    ∀ (as bs : List (List Char)), as ≠ [] → bs ≠ [] →
      sepJoin (as ++ bs) = sepJoin as ++ ' ' :: sepJoin bs := by
  intro as
  induction as with
  | nil => intro bs h _; exact absurd rfl h
  | cons a as' ih =>
    intro bs _ hbs
    cases as' with
    | nil =>
      cases bs with
      | nil => exact absurd rfl hbs
      | cons b bs' => simp [sepJoin_cons_cons, sepJoin]
    | cons a' as'' =>
      have h1 : sepJoin ((a :: a' :: as'') ++ bs) = a ++ ' ' :: sepJoin ((a' :: as'') ++ bs) := rfl
      rw [h1, ih bs (by simp) hbs, sepJoin_cons_cons]
      simp

theorem byteLen_sepJoin_cons (w : List Char) (R : List (List Char)) (h : R ≠ []) :
    byteLen (sepJoin (w :: R)) = byteLen w + 1 + byteLen (sepJoin R) := by
  cases R with
  | nil => exact absurd rfl h
  | cons x xs =>
    rw [sepJoin_cons_cons, byteLen_append, byteLen_cons]
    have : utf8Len ' ' = 1 := by decide
    omega

theorem byteLen_sepJoin_cons_le (w : List Char) (R : List (List Char)) :
    byteLen (sepJoin (w :: R)) ≤ byteLen w + 1 + byteLen (sepJoin R) := by
  cases R with
  | nil =>
    rw [show sepJoin [w] = w from rfl, show sepJoin ([] : List (List Char)) = [] from rfl]
    have hz : byteLen ([] : List Char) = 0 := rfl
    omega
  | cons x xs => rw [byteLen_sepJoin_cons w (x :: xs) (by simp)]

theorem byteLen_sepJoin_append (as bs : List (List Char)) (ha : as ≠ []) (hb : bs ≠ []) :
    byteLen (sepJoin (as ++ bs)) = byteLen (sepJoin as) + 1 + byteLen (sepJoin bs) := by
  rw [sepJoin_append_nonempty as bs ha hb, byteLen_append, byteLen_cons]
  have : utf8Len ' ' = 1 := by decide
  omega

theorem byteLen_le_sepJoin :
    ∀ (ws : List (List Char)) (w : List Char), w ∈ ws → byteLen w ≤ byteLen (sepJoin ws) := by
  intro ws
  induction ws with
  | nil => intro w hw; simp at hw
  | cons x rest ih =>
    intro w hw
    rcases List.mem_cons.mp hw with h | h
    · subst h
      cases rest with
      | nil => rw [show sepJoin [w] = w from rfl]
      | cons y ys =>
        rw [byteLen_sepJoin_cons w (y :: ys) (by simp)]
        omega
    · have h1 := ih w h
      have h2 : rest ≠ [] := by
        intro hcon
        rw [hcon] at h
        simp at h
      rw [byteLen_sepJoin_cons x rest h2]
      omega

theorem splitWSAux_nil (cur : List Char) :
    splitWSAux [] cur = if cur = [] then [] else [cur.reverse] := rfl

theorem splitWSAux_cons_ws (c : Char) (cs cur : List Char) (h : c.isWhitespace = true) :
    splitWSAux (c :: cs) cur
      = if cur = [] then splitWSAux cs [] else cur.reverse :: splitWSAux cs [] := by
  simp [splitWSAux, h]

theorem splitWSAux_cons_not (c : Char) (cs cur : List Char) (h : c.isWhitespace = false) :
    splitWSAux (c :: cs) cur = splitWSAux cs (c :: cur) := by
  simp [splitWSAux, h]

/-- The words recovered from any input line, rejoined with single spaces,
are at most as long as the line itself: each separator came from at least
one whitespace byte. -/
theorem byteLen_sepJoin_splitWSAux :
    ∀ (l cur : List Char), byteLen (sepJoin (splitWSAux l cur)) ≤ byteLen cur + byteLen l := by
  intro l
  induction l with
  | nil =>
    intro cur
    rw [splitWSAux_nil]
    by_cases h : cur = []
    · subst h
      rw [if_pos rfl, show sepJoin ([] : List (List Char)) = [] from rfl]
      have hz : byteLen ([] : List Char) = 0 := rfl
      omega
    · rw [if_neg h, show sepJoin [cur.reverse] = cur.reverse from rfl, byteLen_reverse]
      omega
  | cons c cs ih =>
    intro cur
    have hc := utf8Len_pos c
    rw [byteLen_cons]
    cases hws : c.isWhitespace with
    | true =>
      rw [splitWSAux_cons_ws c cs cur hws]
      by_cases h : cur = []
      · rw [if_pos h]
        have h2 := ih []
        have hz : byteLen ([] : List Char) = 0 := rfl
        omega
      · rw [if_neg h]
        have h1 := byteLen_sepJoin_cons_le cur.reverse (splitWSAux cs [])
        have h2 := ih []
        have hz : byteLen ([] : List Char) = 0 := rfl
        rw [byteLen_reverse] at h1
        omega
    | false =>
      rw [splitWSAux_cons_not c cs cur hws]
      have h2 := ih (c :: cur)
      rw [byteLen_cons] at h2
      omega

theorem byteLen_sepJoin_splitWS (l : List Char) :
    byteLen (sepJoin (splitWS l)) ≤ byteLen l := by
  have h := byteLen_sepJoin_splitWSAux l []
  have hz : byteLen ([] : List Char) = 0 := rfl
  unfold splitWS
  omega

/-! ## Exact arithmetic for the width test when nothing overflows -/

theorem wrap32_eq_self (x : Int) (h1 : -(2 ^ 31) ≤ x) (h2 : x < 2 ^ 31) : wrap32 x = x := by
  unfold wrap32
  rw [Int.emod_eq_of_lt (by omega) (by omega)]
  omega

/-- Within the no-overflow bounds, the Rust width test compares the exact
byte-length estimate to the budget. -/
theorem wrapTooWide_iff (maxW approx BInt : Int) (test : List Char) (ha : 0 ≤ approx)
    (hle : (byteLen test : Int) ≤ BInt) (hB : BInt < 2 ^ 31) (hBov : BInt * approx < 2 ^ 31) :
    wrapTooWide maxW approx test = true ↔ maxW < (byteLen test : Int) * approx := by
  have hn0 : (0 : Int) ≤ (byteLen test : Int) := Int.ofNat_nonneg _
  have hw1 : wrap32 ((byteLen test : Nat) : Int) = (byteLen test : Int) :=
    wrap32_eq_self _ (by omega) (by omega)
  have hmul0 : (0 : Int) ≤ (byteLen test : Int) * approx := mul_nonneg hn0 ha
  have hmulB : (byteLen test : Int) * approx ≤ BInt * approx :=
    mul_le_mul_of_nonneg_right hle ha
  have hw2 : wrap32 ((byteLen test : Int) * approx) = (byteLen test : Int) * approx :=
    wrap32_eq_self _ (by omega) (by omega)
  unfold wrapTooWide
  rw [hw1, hw2]
  exact decide_eq_true_iff

theorem byteLen_sepJoin_le_cons (w : List Char) (R : List (List Char)) :
    byteLen (sepJoin R) ≤ byteLen (sepJoin (w :: R)) := by
  cases R with
  | nil =>
    rw [show sepJoin ([] : List (List Char)) = [] from rfl]
    have hz : byteLen ([] : List Char) = 0 := rfl
    omega
  | cons x xs =>
    rw [byteLen_sepJoin_cons w (x :: xs) (by simp)]
    omega

theorem wrapAux_nil (maxW approx : Int) (cur : List Char) (acc : List (List Char)) :
    wrapAux maxW approx [] cur acc = if cur = [] then acc else acc ++ [cur] := rfl

theorem wrapAux_cons (maxW approx : Int) (w : List Char) (ws : List (List Char))
    (cur : List Char) (acc : List (List Char)) :
    wrapAux maxW approx (w :: ws) cur acc =
      if wrapTooWide maxW approx (if cur = [] then w else cur ++ ' ' :: w) then
        if cur = [] then wrapAux maxW approx ws [] (acc ++ [w])
        else wrapAux maxW approx ws w (acc ++ [cur])
      else wrapAux maxW approx ws (if cur = [] then w else cur ++ ' ' :: w) acc := rfl

theorem niceWords_singleton (w : List Char)
    (h : w ≠ [] ∧ ∀ c ∈ w, c.isWhitespace = false) : NiceWords [w] := by
  intro v hv
  have hvw : v = w := by simpa using hv
  subst hvw
  exact h

/-- Invariant of the wrap_text word loop: whenever the width test agrees
with exact arithmetic on every candidate within the byte budget B, every
emitted line is a space-join of words, within the byte-length budget
whenever it carries at least two words. -/
theorem wrapAux_good (maxW approx : Int) (B : Nat)
    (hiff : ∀ test : List Char, byteLen test ≤ B →
      (wrapTooWide maxW approx test = true ↔ maxW < (byteLen test : Int) * approx)) :
    ∀ (ws cws acc : List (List Char)),
      NiceWords ws → NiceWords cws →
      byteLen (sepJoin (cws ++ ws)) ≤ B →
      (2 ≤ cws.length → (byteLen (sepJoin cws) : Int) * approx ≤ maxW) →
      (∀ l ∈ acc, GoodLine maxW approx l) →
      ∀ l ∈ wrapAux maxW approx ws (sepJoin cws) acc, GoodLine maxW approx l := by
  intro ws
  induction ws with
  | nil =>
    intro cws acc _ hncw hb hcur hacc l hl
    rw [wrapAux_nil] at hl
    by_cases h : sepJoin cws = []
    · rw [if_pos h] at hl
      exact hacc l hl
    · rw [if_neg h] at hl
      rcases List.mem_append.mp hl with h1 | h1
      · exact hacc l h1
      · have hleq : l = sepJoin cws := by simpa using h1
        subst hleq
        have hcne : cws ≠ [] := by
          intro hc
          rw [hc] at h
          exact h rfl
        exact ⟨cws, hcne, hncw, rfl, hcur⟩
  | cons w rest ih =>
    intro cws acc hnw hncw hb hcur hacc l hl
    have hwn : w ≠ [] ∧ ∀ c ∈ w, c.isWhitespace = false := hnw w (by simp)
    have hrest : NiceWords rest := fun v hv => hnw v (List.mem_cons_of_mem w hv)
    rw [wrapAux_cons] at hl
    by_cases hcws : cws = []
    · subst hcws
      rw [show sepJoin ([] : List (List Char)) = [] from rfl] at hcur hl
      rw [if_pos rfl] at hl
      have hbw : byteLen w ≤ B := by
        have h1 : byteLen w ≤ byteLen (sepJoin (w :: rest)) :=
          byteLen_le_sepJoin (w :: rest) w (by simp)
        have h2 : byteLen (sepJoin ([] ++ w :: rest)) = byteLen (sepJoin (w :: rest)) := rfl
        omega
      by_cases hwide : wrapTooWide maxW approx w
      · rw [if_pos hwide, if_pos rfl] at hl
        have hb' : byteLen (sepJoin ([] ++ rest)) ≤ B := by
          have h1 : byteLen (sepJoin rest) ≤ byteLen (sepJoin (w :: rest)) :=
            byteLen_sepJoin_le_cons w rest
          have h2 : byteLen (sepJoin ([] ++ w :: rest)) = byteLen (sepJoin (w :: rest)) := rfl
          have h3 : byteLen (sepJoin ([] ++ rest)) = byteLen (sepJoin rest) := rfl
          omega
        have hacc' : ∀ l' ∈ acc ++ [w], GoodLine maxW approx l' := by
          intro l' hl'
          rcases List.mem_append.mp hl' with h1 | h1
          · exact hacc l' h1
          · have hlw : l' = w := by simpa using h1
            rw [hlw]
            exact ⟨[w], by simp, niceWords_singleton w hwn, rfl,
              fun h2 => absurd h2 (by simp)⟩
        exact ih [] (acc ++ [w]) hrest (fun v hv => absurd hv (by simp)) hb'
          (fun h2 => absurd h2 (by simp)) hacc' l hl
      · rw [if_neg hwide] at hl
        have hb' : byteLen (sepJoin ([w] ++ rest)) ≤ B := by
          rw [List.singleton_append]
          have h2 : byteLen (sepJoin ([] ++ w :: rest)) = byteLen (sepJoin (w :: rest)) := rfl
          omega
        exact ih [w] acc hrest (niceWords_singleton w hwn) hb'
          (fun h2 => absurd h2 (by simp)) hacc l hl
    · have hcurne : sepJoin cws ≠ [] := sepJoin_ne_nil cws hcws hncw
      rw [if_neg hcurne] at hl
      have hjoin : sepJoin (cws ++ [w]) = sepJoin cws ++ ' ' :: w := by
        rw [sepJoin_append_nonempty cws [w] hcws (by simp), show sepJoin [w] = w from rfl]
      rw [← hjoin] at hl
      have hassoc : cws ++ w :: rest = (cws ++ [w]) ++ rest := by
        rw [List.append_assoc, List.singleton_append]
      have hbtest : byteLen (sepJoin (cws ++ [w])) ≤ B := by
        cases rest with
        | nil => exact hb
        | cons r rs =>
          rw [hassoc, byteLen_sepJoin_append (cws ++ [w]) (r :: rs) (by simp) (by simp)] at hb
          omega
      by_cases hwide : wrapTooWide maxW approx (sepJoin (cws ++ [w]))
      · rw [if_pos hwide, if_neg hcurne] at hl
        have hacc' : ∀ l' ∈ acc ++ [sepJoin cws], GoodLine maxW approx l' := by
          intro l' hl'
          rcases List.mem_append.mp hl' with h1 | h1
          · exact hacc l' h1
          · have : l' = sepJoin cws := by simpa using h1
            subst this
            exact ⟨cws, hcws, hncw, rfl, hcur⟩
        have hb' : byteLen (sepJoin ([w] ++ rest)) ≤ B := by
          rw [List.singleton_append]
          rw [byteLen_sepJoin_append cws (w :: rest) hcws (by simp)] at hb
          omega
        exact ih [w] (acc ++ [sepJoin cws]) hrest (niceWords_singleton w hwn) hb'
          (fun h2 => absurd h2 (by simp)) hacc' l hl
      · rw [if_neg hwide] at hl
        have hb' : byteLen (sepJoin ((cws ++ [w]) ++ rest)) ≤ B := by
          rw [← hassoc]
          exact hb
        have hnice' : NiceWords (cws ++ [w]) := by
          intro v hv
          rcases List.mem_append.mp hv with h1 | h1
          · exact hncw v h1
          · have : v = w := by simpa using h1
            subst this
            exact hwn
        have hcur' : 2 ≤ (cws ++ [w]).length →
            (byteLen (sepJoin (cws ++ [w])) : Int) * approx ≤ maxW := by
          intro _
          have hiff2 := hiff (sepJoin (cws ++ [w])) hbtest
          have : ¬ maxW < (byteLen (sepJoin (cws ++ [w])) : Int) * approx := by
            intro hcon
            exact hwide (hiff2.mpr hcon)
          omega
        exact ih (cws ++ [w]) acc hrest hnice' hb' hcur' hacc l hl

/-- C9 (amended): provided font_size is nonnegative and the UTF-8 byte
length of the text times font_size / 2 stays below 2^31 (so no i32
overflow occurs in the width computation), wrap_text packs words greedily
under the estimate: every returned line with two or more words fits the
budget under the character count times font_size / 2 estimate; a word
whose estimate alone exceeds the budget occupies exactly one line of its
own, unsplit; empty or whitespace-only input yields an empty sequence of
lines. Both hypotheses are forced: C9_counterexample breaks the original
claim through i32 overflow at a huge nonnegative font size, and, with no
overflow at all, through a negative font size, where the byte-length test
of the code and the character-count estimate of the claim part ways on
multibyte text. -/
theorem C9_wrap_packing (text : List Char) (max_width font_size : Int)
    (hfs : 0 ≤ font_size)
    (hov : (byteLen text : Int) * Int.tdiv font_size 2 < 2 ^ 31) :
    (∀ line ∈ wrap_text text max_width font_size,
        (2 ≤ (splitWS line).length →
          (line.length : Int) * Int.tdiv font_size 2 ≤ max_width)
        ∧ ∀ w ∈ splitWS line,
            max_width < (w.length : Int) * Int.tdiv font_size 2 → line = w)
    ∧ (splitWS text = [] → wrap_text text max_width font_size = []) := by
  have ha : 0 ≤ Int.tdiv font_size 2 := Int.tdiv_nonneg hfs (by norm_num)
  have hiff : ∀ test : List Char, byteLen test ≤ byteLen text →
      (wrapTooWide max_width (Int.tdiv font_size 2) test = true
        ↔ max_width < (byteLen test : Int) * Int.tdiv font_size 2) := by
    intro test hle
    by_cases hz : Int.tdiv font_size 2 = 0
    · rw [hz]
      unfold wrapTooWide
      rw [mul_zero, mul_zero, show wrap32 0 = 0 from by decide]
      exact decide_eq_true_iff
    · have h1 : 1 ≤ Int.tdiv font_size 2 := by omega
      have h2 : (byteLen text : Int) * 1 ≤ (byteLen text : Int) * Int.tdiv font_size 2 :=
        mul_le_mul_of_nonneg_left h1 (Int.ofNat_nonneg _)
      rw [mul_one] at h2
      exact wrapTooWide_iff max_width (Int.tdiv font_size 2) (byteLen text : Int) test ha
        (by exact_mod_cast hle) (by omega) hov
  constructor
  · intro line hline
    unfold wrap_text at hline
    have hgood : GoodLine max_width (Int.tdiv font_size 2) line :=
      wrapAux_good max_width (Int.tdiv font_size 2) (byteLen text) hiff
        (splitWS text) [] []
        (fun w hw => splitWSAux_nice text [] (by simp) w hw)
        (fun w hw => absurd hw (by simp))
        (byteLen_sepJoin_splitWS text)
        (fun h2 => absurd h2 (by simp))
        (fun l' hl' => absurd hl' (by simp))
        line hline
    rcases hgood with ⟨ws', hne, hnice, hleq, hest⟩
    subst hleq
    have hsplit : splitWS (sepJoin ws') = ws' := splitWS_sepJoin ws' hnice
    constructor
    · intro h2
      rw [hsplit] at h2
      have hbe := hest h2
      have hcl : (sepJoin ws').length ≤ byteLen (sepJoin ws') := length_le_byteLen _
      have hm : ((sepJoin ws').length : Int) * Int.tdiv font_size 2
          ≤ (byteLen (sepJoin ws') : Int) * Int.tdiv font_size 2 :=
        mul_le_mul_of_nonneg_right (by exact_mod_cast hcl) ha
      exact le_trans hm hbe
    · intro w hw hover
      rw [hsplit] at hw
      cases ws' with
      | nil => exact absurd rfl hne
      | cons w1 rest' =>
        cases rest' with
        | nil =>
          have hww : w = w1 := by simpa using hw
          rw [hww]
          rfl
        | cons w2 rest'' =>
          have h2 : 2 ≤ (w1 :: w2 :: rest'').length := by
            simp only [List.length_cons]
            omega
          have hbe := hest h2
          have hwb : byteLen w ≤ byteLen (sepJoin (w1 :: w2 :: rest'')) :=
            byteLen_le_sepJoin _ w hw
          have hcl : w.length ≤ byteLen w := length_le_byteLen w
          have hm : (w.length : Int) * Int.tdiv font_size 2
              ≤ (byteLen (sepJoin (w1 :: w2 :: rest'')) : Int) * Int.tdiv font_size 2 :=
            mul_le_mul_of_nonneg_right (by exact_mod_cast le_trans hcl hwb) ha
          exact absurd hover (not_lt.mpr (le_trans hm hbe))
  · intro hempty
    unfold wrap_text
    rw [hempty, wrapAux_nil, if_pos rfl]

/-- C9 counterexample, two independent failure modes of the original
claim. First, at max_width 2147483647 and font_size 2147483646 the i32
width computation overflows, so wrap_text returns one line holding two
words although the character-count estimate of the line exceeds the
budget. Second, with no overflow anywhere, at max_width -6 and font_size
-2 the per-character estimate is -1 and the code accepts the 8-byte
two-word candidate (width -8, not above -6) although its 4-character
estimate -4 exceeds the budget -6: on multibyte text with a negative
multiplier the byte-length test of the code sits below the
character-count estimate of the claim. -/
theorem C9_counterexample :
    (wrap_text "a b".toList 2147483647 2147483646 = ["a b".toList]
      ∧ 2 ≤ (splitWS "a b".toList).length
      ∧ 2147483647 < (("a b".toList).length : Int) * Int.tdiv 2147483646 2)
    ∧ (wrap_text "ぁぁ a".toList (-6) (-2) = ["ぁぁ a".toList]
      ∧ 2 ≤ (splitWS "ぁぁ a".toList).length
      ∧ (-6 : Int) < (("ぁぁ a".toList).length : Int) * Int.tdiv (-2) 2) := by
  exact ⟨⟨by decide, by decide, by decide⟩, ⟨by decide, by decide, by decide⟩⟩

/-- Witness for C9_wrap_packing at a concrete call. -/
theorem C9_wrap_packing_witness :
    ((0 : Int) ≤ 20 ∧ (byteLen "hi there".toList : Int) * Int.tdiv 20 2 < 2 ^ 31)
    ∧ ((∀ line ∈ wrap_text "hi there".toList 100 20,
          (2 ≤ (splitWS line).length →
            (line.length : Int) * Int.tdiv 20 2 ≤ 100)
          ∧ ∀ w ∈ splitWS line, 100 < (w.length : Int) * Int.tdiv 20 2 → line = w)
        ∧ (splitWS "hi there".toList = [] → wrap_text "hi there".toList 100 20 = [])) :=
  ⟨⟨by decide, by decide⟩,
    C9_wrap_packing "hi there".toList 100 20 (by decide) (by decide)⟩

/-! ## Session navigation lemmas -/

theorem usizePred_of_ne (n : Nat) (h : n ≠ 0) : usizePred n = n - 1 := if_neg h

/-- C1 counterexample: on a one-card session at the boundary, a flipped
card stays flipped after next_card and after prev_card, so a saturating
navigation call does not reset is_flipped. -/
theorem C1_counterexample :
    (FlashcardGame.next_card ⟨[⟨['q'], ['a']⟩], 0, true⟩).is_flipped = true
    ∧ (FlashcardGame.prev_card ⟨[⟨['q'], ['a']⟩], 0, true⟩).is_flipped = true := by
  decide

/-- C1 (amended): for a non-empty card collection, next_card and prev_card
reset is_flipped to false exactly when they move the position; a saturating
boundary call leaves the whole session state, including is_flipped,
unchanged. -/
theorem C1_nav_flip_reset (cards : List Flashcard) (i : Nat) (f : Bool) (hne : cards ≠ []) :
    (i < cards.length - 1 →
      FlashcardGame.next_card ⟨cards, i, f⟩ = ⟨cards, i + 1, false⟩)
    ∧ (cards.length - 1 ≤ i →
      FlashcardGame.next_card ⟨cards, i, f⟩ = ⟨cards, i, f⟩)
    ∧ (0 < i → FlashcardGame.prev_card ⟨cards, i, f⟩ = ⟨cards, i - 1, false⟩)
    ∧ (i = 0 → FlashcardGame.prev_card ⟨cards, i, f⟩ = ⟨cards, i, f⟩) := by
  have h0 : cards.length ≠ 0 := fun hc => hne (List.eq_nil_of_length_eq_zero hc)
  have hpred : usizePred cards.length = cards.length - 1 := if_neg h0
  refine ⟨fun h => ?_, fun h => ?_, fun h => ?_, fun h => ?_⟩
  · simp [FlashcardGame.next_card, hpred, h]
  · have hnot : ¬ i < cards.length - 1 := by omega
    simp [FlashcardGame.next_card, hpred, hnot]
  · simp [FlashcardGame.prev_card, h]
  · simp [FlashcardGame.prev_card, h]

theorem C1_nav_flip_reset_witness :
    FlashcardGame.next_card ⟨[⟨['q'], ['a']⟩, ⟨['r'], ['b']⟩], 0, true⟩
      = ⟨[⟨['q'], ['a']⟩, ⟨['r'], ['b']⟩], 1, false⟩ :=
  (C1_nav_flip_reset [⟨['q'], ['a']⟩, ⟨['r'], ['b']⟩] 0 true (by decide)).1 (by decide)

/-- C3 counterexample: on an empty card collection, next_card is not a
no-op: len - 1 underflows in usize (wrapping in a release build, an
overflow panic in a debug build), so the guard passes and the position
advances to 1. -/
theorem C3_counterexample :
    FlashcardGame.next_card ⟨[], 0, false⟩ ≠ ⟨[], 0, false⟩
    ∧ (FlashcardGame.next_card ⟨[], 0, false⟩).current_index = 1 := by
  decide

/-- C3 (amended): for a non-empty card collection and an in-range position,
next_card and prev_card are total, keep the cards and the position in
range, saturate rather than wrap, and are full no-ops at the respective
boundary. -/
theorem C3_nav_total (cards : List Flashcard) (i : Nat) (f : Bool)
    (hne : cards ≠ []) (hi : i < cards.length) :
    ((FlashcardGame.next_card ⟨cards, i, f⟩).cards = cards
      ∧ (FlashcardGame.next_card ⟨cards, i, f⟩).current_index = min (i + 1) (cards.length - 1)
      ∧ (FlashcardGame.next_card ⟨cards, i, f⟩).current_index < cards.length)
    ∧ ((FlashcardGame.prev_card ⟨cards, i, f⟩).cards = cards
      ∧ (FlashcardGame.prev_card ⟨cards, i, f⟩).current_index = i - 1
      ∧ (FlashcardGame.prev_card ⟨cards, i, f⟩).current_index < cards.length)
    ∧ (i = cards.length - 1 → FlashcardGame.next_card ⟨cards, i, f⟩ = ⟨cards, i, f⟩)
    ∧ (i = 0 → FlashcardGame.prev_card ⟨cards, i, f⟩ = ⟨cards, i, f⟩) := by
  have h0 : cards.length ≠ 0 := fun hc => hne (List.eq_nil_of_length_eq_zero hc)
  have hpred : usizePred cards.length = cards.length - 1 := if_neg h0
  refine ⟨⟨?_, ?_, ?_⟩, ⟨?_, ?_, ?_⟩, fun h => ?_, fun h => ?_⟩
  · by_cases h : i < cards.length - 1 <;> simp [FlashcardGame.next_card, hpred, h]
  · by_cases h : i < cards.length - 1 <;> simp [FlashcardGame.next_card, hpred, h] <;> omega
  · by_cases h : i < cards.length - 1 <;> simp [FlashcardGame.next_card, hpred, h] <;> omega
  · by_cases h : 0 < i <;> simp [FlashcardGame.prev_card, h]
  · by_cases h : 0 < i <;> simp [FlashcardGame.prev_card, h] <;> omega
  · by_cases h : 0 < i <;> simp [FlashcardGame.prev_card, h] <;> omega
  · have hnot : ¬ i < cards.length - 1 := by omega
    simp [FlashcardGame.next_card, hpred, hnot]
  · simp [FlashcardGame.prev_card, h]

theorem C3_nav_total_witness :
    (FlashcardGame.next_card ⟨[⟨['q'], ['a']⟩], 0, false⟩).cards = [⟨['q'], ['a']⟩]
    ∧ (FlashcardGame.next_card ⟨[⟨['q'], ['a']⟩], 0, false⟩).current_index
        = min (0 + 1) ([⟨['q'], ['a']⟩] : List Flashcard).length - 1
    ∧ (FlashcardGame.next_card ⟨[⟨['q'], ['a']⟩], 0, false⟩).current_index
        < ([⟨['q'], ['a']⟩] : List Flashcard).length := by
  have h := (C3_nav_total [⟨['q'], ['a']⟩] 0 false (by decide) (by decide)).1
  exact ⟨h.1, by decide, h.2.2⟩

/-- C10: get_current_text is total: an out-of-range position (including the
empty collection) yields the empty string; otherwise the question of the
current card is returned when not flipped and its answer when flipped. -/
theorem C10_current_text_total (cards : List Flashcard) (i : Nat) (f : Bool) :
    FlashcardGame.get_current_text ⟨cards, i, f⟩
      = if h : i < cards.length then
          (if f then (cards.get ⟨i, h⟩).answer else (cards.get ⟨i, h⟩).question)
        else [] := by
  unfold FlashcardGame.get_current_text
  by_cases h : i < cards.length
  · rw [dif_pos h]
    simp only [List.getElem?_eq_getElem h, List.get_eq_getElem]
  · rw [dif_neg h]
    simp only [List.getElem?_eq_none (by omega : cards.length ≤ i)]

/-- C2: the code aborts instead of failing gracefully: whatever the prior
session state, a reload whose deck file yields no usable cards (here a
single blank line) or whose read fails hits panic!("Failed to load
cards"), modelled by the none result. -/
theorem C2_reload_panics (g : FlashcardGame) :
    update_decks (some [[]]) g = none ∧ update_decks none g = none := by
  have h : try_load_cards (some [[]]) = none := by decide
  exact ⟨by simp [update_decks, h], rfl⟩

/-- C4: the parser follows the quote-aware scan: the concrete spec
examples hold (escaped quotes, literal commas inside quotes, trimming,
too-few-fields, extra fields ignored), a record is produced exactly when
the scan closes at least two fields, and the first two closed fields
become the record. -/
theorem C4_parse_scan :
    (parse_csv_line "a,b".toList = some ("a".toList, "b".toList)
    ∧ parse_csv_line "\"a,b\",c".toList = some ("a,b".toList, "c".toList)
    ∧ parse_csv_line "\"say \"\"hi\"\"\",ok".toList = some ("say \"hi\"".toList, "ok".toList)
    ∧ parse_csv_line " a , b ".toList = some ("a".toList, "b".toList)
    ∧ parse_csv_line "".toList = none
    ∧ parse_csv_line "onlyonefield".toList = none
    ∧ parse_csv_line "a,b,c".toList = some ("a".toList, "b".toList))
    ∧ ∀ line : List Char,
        (parse_csv_line line = none ↔ (parseCsvAux line false [] []).length < 2)
        ∧ ∀ q a rest, parseCsvAux line false [] [] = q :: a :: rest →
            parse_csv_line line = some (q, a) := by
  refine ⟨⟨by decide, by decide, by decide, by decide, by decide, by decide, by decide⟩, ?_⟩
  intro line
  constructor
  · rcases h : parseCsvAux line false [] [] with _ | ⟨q, _ | ⟨a, rest⟩⟩ <;>
      simp [parse_csv_line, h]
  · intro q a rest h
    simp [parse_csv_line, h]

/-- The card-keeping loop of load_flashcards is a filterMap over the lines,
whatever cards were already accumulated. -/
theorem load_foldl_general :
    ∀ (lines : List (List Char)) (acc : List Flashcard),
      lines.foldl
        (fun cards l =>
          match parse_csv_line l with
          | some (question, answer) =>
            if question ≠ [] ∧ answer ≠ [] then cards ++ [⟨question, answer⟩] else cards
          | none => cards) acc
      = acc ++ lines.filterMap (fun l =>
          match parse_csv_line l with
          | some (question, answer) =>
            if question ≠ [] ∧ answer ≠ [] then some ⟨question, answer⟩ else none
          | none => none) := by
  intro lines
  induction lines with
  | nil => intro acc; simp
  | cons l rest ih =>
    intro acc
    simp only [List.foldl_cons, List.filterMap_cons]
    cases h : parse_csv_line l with
    | none => simpa [h] using ih acc
    | some qa =>
      obtain ⟨q, a⟩ := qa
      simp only [h]
      by_cases hk : q ≠ [] ∧ a ≠ []
      · rw [if_pos hk, if_pos hk, ih (acc ++ [Flashcard.mk q a])]
        simp
      · rw [if_neg hk, if_neg hk]
        simpa using ih acc

/-- C5: the loader keeps exactly the lines parsing to a record with a
non-empty question and answer, in file order; the four-line spec example
yields exactly one card. -/
theorem C5_load_filter :
    (∀ lines : List (List Char),
      load_flashcards lines = lines.filterMap (fun l =>
        match parse_csv_line l with
        | some (question, answer) =>
          if question ≠ [] ∧ answer ≠ [] then some ⟨question, answer⟩ else none
        | none => none))
    ∧ load_flashcards ["q1,a1".toList, "".toList, "q2,".toList, "bad".toList]
        = [⟨"q1".toList, "a1".toList⟩] := by
  constructor
  · intro lines
    unfold load_flashcards
    rw [load_foldl_general lines []]
    simp
  · decide

/-! ## Lexicographic order lemmas for the catalog sort -/

theorem lexLe_total : ∀ (a b : List Char), lexLe a b = true ∨ lexLe b a = true := by
  intro a
  induction a with
  | nil => intro b; left; rfl
  | cons x xs ih =>
    intro b
    cases b with
    | nil => right; rfl
    | cons y ys =>
      by_cases h1 : x.toNat < y.toNat
      · left
        simp only [lexLe, if_pos h1]
      · by_cases h2 : y.toNat < x.toNat
        · right
          simp only [lexLe, if_pos h2]
        · simp only [lexLe, if_neg h1, if_neg h2]
          exact ih ys

theorem lexLe_trans :
    ∀ (a b c : List Char), lexLe a b = true → lexLe b c = true → lexLe a c = true := by
  intro a
  induction a with
  | nil => intro b c _ _; rfl
  | cons x xs ih =>
    intro b c hab hbc
    cases b with
    | nil => simp [lexLe] at hab
    | cons y ys =>
      cases c with
      | nil => simp [lexLe] at hbc
      | cons z zs =>
        simp only [lexLe] at hab hbc ⊢
        by_cases hxy : x.toNat < y.toNat
        · by_cases hyz : y.toNat < z.toNat
          · rw [if_pos (show x.toNat < z.toNat by omega)]
          · by_cases hzy : z.toNat < y.toNat
            · rw [if_neg hyz, if_pos hzy] at hbc
              exact absurd hbc (by simp)
            · rw [if_pos (show x.toNat < z.toNat by omega)]
        · by_cases hyx : y.toNat < x.toNat
          · rw [if_neg hxy, if_pos hyx] at hab
            exact absurd hab (by simp)
          · rw [if_neg hxy, if_neg hyx] at hab
            by_cases hyz : y.toNat < z.toNat
            · rw [if_pos (show x.toNat < z.toNat by omega)]
            · by_cases hzy : z.toNat < y.toNat
              · rw [if_neg hyz, if_pos hzy] at hbc
                exact absurd hbc (by simp)
              · rw [if_neg hyz, if_neg hzy] at hbc
                rw [if_neg (show ¬ x.toNat < z.toNat by omega),
                  if_neg (show ¬ z.toNat < x.toNat by omega)]
                exact ih ys zs hab hbc

instance : IsTotal (List Char) lexLeP := ⟨lexLe_total⟩

instance : IsTrans (List Char) lexLeP := ⟨lexLe_trans⟩

/-! ## File extension lemmas -/

theorem splitAtLastDot_none : ∀ (l : List Char), splitAtLastDot l = none → '.' ∉ l := by
  intro l
  induction l with
  | nil => intro _; simp
  | cons c cs ih =>
    intro h
    simp only [splitAtLastDot] at h
    cases hs : splitAtLastDot cs with
    | some p =>
      obtain ⟨b, a⟩ := p
      rw [hs] at h
      simp at h
    | none =>
      rw [hs] at h
      by_cases hc : c = '.'
      · rw [if_pos hc] at h
        simp at h
      · rw [if_neg hc] at h
        intro hmem
        rcases List.mem_cons.mp hmem with h1 | h1
        · exact hc h1.symm
        · exact ih hs h1

theorem splitAtLastDot_none_of_not_mem :
    ∀ (l : List Char), '.' ∉ l → splitAtLastDot l = none := by
  intro l
  induction l with
  | nil => intro _; rfl
  | cons c cs ih =>
    intro h
    have hc : ¬ c = '.' := by
      intro hc
      exact h (by rw [hc]; exact List.mem_cons_self '.' cs)
    have hcs : '.' ∉ cs := fun hm => h (List.mem_cons_of_mem c hm)
    simp only [splitAtLastDot, ih hcs, if_neg hc]

theorem splitAtLastDot_some :
    ∀ (l b a : List Char), splitAtLastDot l = some (b, a) → l = b ++ '.' :: a ∧ '.' ∉ a := by
  intro l
  induction l with
  | nil => intro b a h; simp [splitAtLastDot] at h
  | cons c cs ih =>
    intro b a h
    simp only [splitAtLastDot] at h
    cases hs : splitAtLastDot cs with
    | some p =>
      obtain ⟨b', a'⟩ := p
      rw [hs] at h
      simp only [Option.some_inj, Prod.mk.injEq] at h
      obtain ⟨hb, ha⟩ := h
      rcases ih b' a' hs with ⟨hl, hna⟩
      subst hb
      subst ha
      exact ⟨by simp [hl], hna⟩
    | none =>
      rw [hs] at h
      by_cases hc : c = '.'
      · rw [if_pos hc] at h
        simp only [Option.some_inj, Prod.mk.injEq] at h
        obtain ⟨hb, ha⟩ := h
        subst hb
        subst ha
        exact ⟨by simp [hc], splitAtLastDot_none cs hs⟩
      · rw [if_neg hc] at h
        simp at h

theorem splitAtLastDot_append (b a : List Char) (hna : '.' ∉ a) :
    splitAtLastDot (b ++ '.' :: a) = some (b, a) := by
  induction b with
  | nil =>
    simp [splitAtLastDot, splitAtLastDot_none_of_not_mem a hna]
  | cons c b' ih =>
    have h1 : (c :: b') ++ '.' :: a = c :: (b' ++ '.' :: a) := rfl
    rw [h1]
    simp only [splitAtLastDot]
    rw [ih]

/-- Unfolding of pathExtension through a successful split. -/
theorem pathExtension_eq (n b a : List Char) (hn : n ≠ ['.', '.'])
    (hs : splitAtLastDot n = some (b, a)) :
    pathExtension n = if b = [] then none else some a := by
  unfold pathExtension
  rw [if_neg hn, hs]

/-- The retained extension is exactly a non-empty stem followed by the
literal suffix ".csv" (so a bare ".csv" hidden file does not count, and
the match is case-sensitive). -/
theorem pathExtension_csv_iff (n : List Char) :
    pathExtension n = some ['c', 's', 'v']
      ↔ ∃ s : List Char, s ≠ [] ∧ n = s ++ '.' :: 'c' :: 's' :: 'v' :: [] := by
  constructor
  · intro h
    unfold pathExtension at h
    by_cases hdd : n = ['.', '.']
    · rw [if_pos hdd] at h
      simp at h
    · rw [if_neg hdd] at h
      cases hs : splitAtLastDot n with
      | none =>
        rw [hs] at h
        simp at h
      | some p =>
        obtain ⟨b, a⟩ := p
        rw [hs] at h
        have h2 : (if b = [] then none else some a) = some ['c', 's', 'v'] := h
        by_cases hb : b = []
        · rw [if_pos hb] at h2
          simp at h2
        · rw [if_neg hb] at h2
          simp only [Option.some_inj] at h2
          rcases splitAtLastDot_some n b a hs with ⟨hl, _⟩
          subst h2
          exact ⟨b, hb, hl⟩
  · rintro ⟨s, hs, rfl⟩
    unfold pathExtension
    have hna : ('.' : Char) ∉ ['c', 's', 'v'] := by decide
    have hsplit : splitAtLastDot (s ++ '.' :: 'c' :: 's' :: 'v' :: [])
        = some (s, ['c', 's', 'v']) := splitAtLastDot_append s ['c', 's', 'v'] hna
    have hne2 : s ++ '.' :: 'c' :: 's' :: 'v' :: [] ≠ ['.', '.'] := by
      intro hcon
      have hlen := congrArg List.length hcon
      have hpos : 0 < s.length := List.length_pos.mpr hs
      simp only [List.length_append, List.length_cons] at hlen
      omega
    rw [if_neg hne2, hsplit]
    exact if_neg hs

/-- C6: catalog construction fails with the directory-not-found class when
the path does not exist, the not-a-directory class when it is no directory,
and the no-decks-found class when no matching file remains; otherwise it
retains exactly the regular files carrying the case-sensitive ".csv"
extension, sorts their names lexicographically, and starts at index 0; in
particular a directory holding b.csv, a.csv, c.txt yields the entries
a.csv, b.csv. -/
theorem C6_catalog (folder : List Char) (dir : DirListing) :
    (dir.pathExists = false →
      DeckManager.new folder dir = Except.error CatalogError.directoryNotFound)
    ∧ (dir.pathExists = true → dir.isDir = false →
      DeckManager.new folder dir = Except.error CatalogError.notADirectory)
    ∧ (∀ e : DirEntry, keepDeckFile e = true ↔
        e.isFile = true ∧ ∃ s : List Char, s ≠ [] ∧ e.name = s ++ '.' :: 'c' :: 's' :: 'v' :: [])
    ∧ (dir.pathExists = true → dir.isDir = true →
        (dir.entries.filter keepDeckFile).map DirEntry.name = [] →
        DeckManager.new folder dir = Except.error CatalogError.noDecksFound)
    ∧ (dir.pathExists = true → dir.isDir = true →
        (dir.entries.filter keepDeckFile).map DirEntry.name ≠ [] →
        ∃ dm : DeckManager, DeckManager.new folder dir = Except.ok dm
          ∧ dm.deck_files.Perm ((dir.entries.filter keepDeckFile).map DirEntry.name)
          ∧ List.Sorted lexLeP dm.deck_files
          ∧ dm.current_deck_index = 0
          ∧ dm.deck_folder = folder)
    ∧ DeckManager.new "d".toList
        ⟨true, true, [⟨"b.csv".toList, true⟩, ⟨"a.csv".toList, true⟩, ⟨"c.txt".toList, true⟩]⟩
      = Except.ok ⟨["a.csv".toList, "b.csv".toList], 0, "d".toList⟩ := by
  refine ⟨?_, ?_, ?_, ?_, ?_, ?_⟩
  · intro h
    unfold DeckManager.new
    rw [if_pos h]
  · intro h1 h2
    unfold DeckManager.new
    rw [if_neg (by simp [h1]), if_pos h2]
  · intro e
    simp only [keepDeckFile, Bool.and_eq_true, decide_eq_true_eq]
    exact and_congr_right fun _ => pathExtension_csv_iff e.name
  · intro h1 h2 h3
    unfold DeckManager.new
    rw [if_neg (by simp [h1]), if_neg (by simp [h2]), h3]
    rfl
  · intro h1 h2 h3
    have hperm :=
      List.perm_insertionSort lexLeP ((dir.entries.filter keepDeckFile).map DirEntry.name)
    have hns : List.insertionSort lexLeP
        ((dir.entries.filter keepDeckFile).map DirEntry.name) ≠ [] := by
      intro hc
      rw [hc] at hperm
      exact h3 hperm.symm.eq_nil
    refine ⟨⟨List.insertionSort lexLeP ((dir.entries.filter keepDeckFile).map DirEntry.name),
        0, folder⟩, ?_, hperm, List.sorted_insertionSort lexLeP _, rfl, rfl⟩
    unfold DeckManager.new
    rw [if_neg (by simp [h1]), if_neg (by simp [h2]), if_neg hns]
  · rfl

theorem C6_catalog_witness :
    DeckManager.new "d".toList ⟨false, false, []⟩
      = Except.error CatalogError.directoryNotFound :=
  (C6_catalog "d".toList ⟨false, false, []⟩).1 rfl

/-- C7: for a catalog with at least one entry and an in-range active index,
next_deck advances and prev_deck retreats modulo the entry count: next from
the last index wraps to 0, prev from 0 wraps to the last index, and on a
single-entry catalog both calls leave the manager unchanged. -/
theorem C7_deck_cycling (files : List (List Char)) (i : Nat) (folder : List Char)
    (hn : 0 < files.length) (hi : i < files.length) :
    ((DeckManager.next_deck ⟨files, i, folder⟩).current_deck_index = (i + 1) % files.length)
    ∧ ((DeckManager.prev_deck ⟨files, i, folder⟩).current_deck_index
        = (i + files.length - 1) % files.length)
    ∧ (i = files.length - 1 → (DeckManager.next_deck ⟨files, i, folder⟩).current_deck_index = 0)
    ∧ (i = 0 →
        (DeckManager.prev_deck ⟨files, i, folder⟩).current_deck_index = files.length - 1)
    ∧ (files.length = 1 →
        DeckManager.next_deck ⟨files, i, folder⟩ = ⟨files, i, folder⟩
        ∧ DeckManager.prev_deck ⟨files, i, folder⟩ = ⟨files, i, folder⟩) := by
  have hne : files ≠ [] := by
    intro hc
    rw [hc] at hn
    simp at hn
  refine ⟨?_, ?_, ?_, ?_, ?_⟩
  · show (if files ≠ [] then (⟨files, (i + 1) % files.length, folder⟩ : DeckManager)
        else ⟨files, i, folder⟩).current_deck_index = (i + 1) % files.length
    rw [if_pos hne]
  · show (if files ≠ [] then
          (if i = 0 then (⟨files, files.length - 1, folder⟩ : DeckManager)
            else ⟨files, i - 1, folder⟩)
        else ⟨files, i, folder⟩).current_deck_index = (i + files.length - 1) % files.length
    rw [if_pos hne]
    by_cases h0 : i = 0
    · rw [if_pos h0]
      subst h0
      show files.length - 1 = (0 + files.length - 1) % files.length
      rw [Nat.zero_add, Nat.mod_eq_of_lt (by omega)]
    · rw [if_neg h0]
      show i - 1 = (i + files.length - 1) % files.length
      have h1 : i + files.length - 1 = (i - 1) + files.length := by omega
      rw [h1, Nat.add_mod_right, Nat.mod_eq_of_lt (by omega)]
  · intro h
    show (if files ≠ [] then (⟨files, (i + 1) % files.length, folder⟩ : DeckManager)
        else ⟨files, i, folder⟩).current_deck_index = 0
    rw [if_pos hne]
    show (i + 1) % files.length = 0
    rw [h, Nat.sub_add_cancel (by omega), Nat.mod_self]
  · intro h
    show (if files ≠ [] then
          (if i = 0 then (⟨files, files.length - 1, folder⟩ : DeckManager)
            else ⟨files, i - 1, folder⟩)
        else ⟨files, i, folder⟩).current_deck_index = files.length - 1
    rw [if_pos hne, if_pos h]
  · intro h
    have h0 : i = 0 := by omega
    subst h0
    constructor
    · show (if files ≠ [] then (⟨files, (0 + 1) % files.length, folder⟩ : DeckManager)
          else ⟨files, 0, folder⟩) = ⟨files, 0, folder⟩
      rw [if_pos hne, h]
    · show (if files ≠ [] then
            (if (0 : Nat) = 0 then (⟨files, files.length - 1, folder⟩ : DeckManager)
              else ⟨files, 0 - 1, folder⟩)
          else ⟨files, 0, folder⟩) = ⟨files, 0, folder⟩
      rw [if_pos hne, if_pos rfl, h]

theorem C7_deck_cycling_witness :
    (DeckManager.next_deck ⟨["a.csv".toList, "b.csv".toList], 1, "d".toList⟩).current_deck_index
      = (1 + 1) % (["a.csv".toList, "b.csv".toList] : List (List Char)).length :=
  (C7_deck_cycling ["a.csv".toList, "b.csv".toList] 1 "d".toList (by decide) (by decide)).1

theorem C4_parse_scan_witness :
    parse_csv_line "a,b".toList = some ("a".toList, "b".toList) :=
  (C4_parse_scan.2 "a,b".toList).2 "a".toList "b".toList [] (by decide)
